import Mathlib

/-!
Verification of the copy-on-write whiteout subsystem of unionfs-fuse
(src/string.c and src/general.c), against its natural-language
specification.

Strings are modelled as `List Char` (one `Char` per byte, no NUL
bytes inside a string).  Machine integers are `Nat`/`Int` with explicit
`% 2^32` where 32-bit overflow matters.  The filesystem is modelled as a
function from paths to `Option FKind` (the observable result of `lstat`:
absent, regular file, or directory); operations that mutate the
filesystem return a new such function.
-/

set_option maxRecDepth 1000000

/-- Modelled from the spec: the fixed maximum-path-length constant
(`PATHLEN_MAX`, defined in a header that is not part of the given
sources; the spec calls it "a fixed maximum-path-length constant"). -/
def PATHLEN_MAX : Nat := 1024

/-- Modelled from the spec: the fixed whiteout tag string constant
(`HIDETAG`, defined in a header that is not part of the given sources). -/
def HIDETAG_L : List Char := "_HIDDEN~".toList

/-- Modelled from the spec: the fixed Metadata Tree subdirectory name
(`METADIR`, defined in a header that is not part of the given sources).
It carries a trailing separator, and branch root paths as stored in the
branch registry end with a separator; this is what makes the pointer
arithmetic `whiteoutpath + path_len + strlen(METADIR) - 1` in
`path_hidden` land on the separator that precedes the first path
component. -/
def METADIR_L : List Char := ".unionfs/".toList

/-- `METADIR` without its trailing separator (what remains of it in a
built path after `build_path` collapses the doubled separator against a
union path that starts with one). -/
def metadirNS_L : List Char := ".unionfs".toList

/-- The Linux errno value `ENAMETOOLONG`; the code returns its negation. -/
def ENAMETOOLONG : Int := 36

/-- The NUL byte, used where the C code reads a terminator character. -/
def NUL : Char := Char.ofNat 0

/-- Errors reported by `build_path` (string.c): it sets `errno` to `EIO`
for a missing/empty first segment and to `ENAMETOOLONG` for an overlong
joined path, and returns `-errno`. -/
inductive BuildErr
  | eio
  | enametoolong
deriving DecidableEq

/-- Modelled from the spec: the error-taxonomy name `InvalidArgument`
("empty/missing required path segment") is realized by `build_path` as
the `errno = EIO` return. -/
def invalidArgumentErr : BuildErr := .eio

/-- Outcome of `build_path` (string.c:56-124).  `err` is the returned
error, if any; `buf` is the NUL-terminated string content left in the
caller's buffer; `hi` is the number of distinct buffer bytes the call
stored (highest written offset plus one), tracking every `*path = c` and
`memcpy` the C function performs, terminator included. -/
structure BuildResult where
  err : Option BuildErr
  buf : List Char
  hi : Nat
deriving DecidableEq

/-- The separator adjustment at the top of `build_path`'s `while` loop
(string.c:96-104): if the partial path ends with `/` and the next
segment starts with `/`, step back over the doubled separator; if
neither side carries one, append a single `/` (one more byte written);
otherwise do nothing.  `path[-1]` is the last character written so far
and `arg[0]` is the segment's first byte (the terminator, hence `NUL`,
when the segment is empty). -/
def sepAdjust (buf : List Char) (ag : List Char) (hi : Nat) : List Char × Nat :=
  if buf.getLastD NUL = '/' ∧ ag.headD NUL = '/' then (buf.dropLast, hi)
  else if buf.getLastD NUL ≠ '/' ∧ ag.headD NUL ≠ '/' then (buf ++ ['/'], max hi (buf.length + 1))
  else (buf, hi)

/-- The `while((arg = va_arg(ap, char *)) != NULL)` loop of `build_path`
(string.c:87-118): adjust the separator, fail with `ENAMETOOLONG` when
`len + arg_len + 1 > max_len` (writing the truncating terminator at the
current offset), otherwise copy the segment and continue.  The final
`*path = '\0'` of string.c:119 is the terminator write in the nil case. -/
def build_path_loop (maxLen : Nat) : List (List Char) → List Char → Nat → BuildResult
  | [], buf, hi => ⟨none, buf, max hi (buf.length + 1)⟩
  | ag :: rest, buf, hi =>
    let bh := sepAdjust buf ag hi
    if bh.1.length + ag.length + 1 > maxLen then
      ⟨some .enametoolong, bh.1, max bh.2 (bh.1.length + 1)⟩
    else
      build_path_loop maxLen rest (bh.1 ++ ag)
        (if ag.length = 0 then bh.2 else max bh.2 (bh.1.length + ag.length))

/-- `build_path` (string.c:56-124).  The C function takes its segments
as varargs terminated by `NULL`; they are modelled as the list `args`
(so a missing first segment is `args = []`).  It first writes the
terminator at offset 0, fails with `errno = EIO` when the first segment
is missing or empty, with `ENAMETOOLONG` when the first segment plus
terminator would not fit, then runs the append loop. -/
def build_path (maxLen : Nat) (args : List (List Char)) : BuildResult :=
  match args with
  | [] => ⟨some .eio, [], 1⟩
  | ag :: rest =>
    if ag.length = 0 then ⟨some .eio, [], 1⟩
    else if ag.length + 1 > maxLen then ⟨some .enametoolong, [], 1⟩
    else build_path_loop maxLen rest ag (max 1 ag.length)

/-- C `strstr`: index of the first occurrence of `pat` in `s` (`none`
when absent; offset 0 for the empty pattern, as `strstr` returns its
first argument then). -/
def strstrIdx (pat : List Char) : List Char → Option Nat
  | [] => if pat.isEmpty then some 0 else none
  | c :: t => if pat.isPrefixOf (c :: t) then some 0 else (strstrIdx pat t).map (· + 1)

/-- `whiteout_tag` (string.c:31-43): the first occurrence of `HIDETAG`
in `fname`, returned (as the offset standing for the returned pointer)
only when it is not at the very start and the string length remaining
from it equals the tag length (i.e. the match sits exactly at the end). -/
def whiteout_tag (fname : List Char) : Option Nat :=
  match strstrIdx HIDETAG_L fname with
  | none => none
  | some i => if i ≠ 0 ∧ fname.length - i = HIDETAG_L.length then some i else none

/-- One step of `elfhash` (string.c:158-184) on the next input byte `c`
(0 ≤ c < 256).  On the reference platform `char` is signed, so a byte
at 0x80 or above enters the unsigned 32-bit addition `(hash << 4) + (*str)`
as its sign-extended two's-complement value; that conversion is
`(c + 2^32 - 256) % 2^32` for `c ≥ 128`.  Then the top nibble
(`hash & 0xF0000000`) is, when non-zero, XORed in shifted down 24 bits,
and cleared (`hash &= ~highbyte`). -/
def elfhash_step (hash c : Nat) : Nat :=
  let h1 := (hash * 16 + (if c < 128 then c else (c + (2 ^ 32 - 256)) % 2 ^ 32)) % 2 ^ 32
  let highbyte := Nat.land h1 0xF0000000
  let h2 := if highbyte ≠ 0 then Nat.xor h1 (highbyte >>> 24) else h1
  Nat.land h2 (Nat.xor 0xFFFFFFFF highbyte)

/-- `elfhash` (string.c:158-184): fold the step over the bytes of the
NUL-terminated input (the list holds the bytes before the terminator). -/
def elfhash (s : List Nat) : Nat := s.foldl elfhash_step 0

/-- `string_hash` (string.c:190-192): a thin wrapper around `elfhash`. -/
def string_hash (s : List Nat) : Nat := elfhash s

/-- Modelled from the spec: one step of the section 4.2 reference hash,
which adds every input byte `c` (an unsigned value) directly:
`hash = (hash << 4) + c` in a 32-bit accumulator, then the identical
top-nibble folding. -/
def elfhash_spec_step (hash c : Nat) : Nat :=
  let h1 := (hash * 16 + c) % 2 ^ 32
  let highbyte := Nat.land h1 0xF0000000
  let h2 := if highbyte ≠ 0 then Nat.xor h1 (highbyte >>> 24) else h1
  Nat.land h2 (Nat.xor 0xFFFFFFFF highbyte)

/-- Modelled from the spec: the fixed ELF-style 32-bit hash of section
4.2 over unsigned input bytes. -/
def elfhash_spec (s : List Nat) : Nat := s.foldl elfhash_spec_step 0

/-- Kind of a filesystem entry, as distinguished by `path_is_dir`
(general.c:129-139). -/
inductive FKind
  | file
  | dir
deriving DecidableEq

/-- The observable filesystem: what `lstat` reports for each path
(`none` = `NOT_EXISTING`, `some .file` = `IS_FILE`, `some .dir` = `IS_DIR`). -/
def Fs : Type := List Char → Option FKind

/-- The process-wide configuration `uopt` as far as this core reads it:
the COW flag and the ordered branch list (each entry its root path; the
stored `path_len` is its length).  Branch root paths end with a
separator (established at option parsing, outside the given sources). -/
structure Cfg where
  cow_enabled : Bool
  branches : List (List Char)

/-- `filedir_hidden` (general.c:43-62): test whether the marker
`p[0..length) ++ HIDETAG` exists.  Returns 0 when COW is disabled;
`length = 0` means the whole string; fails with `-ENAMETOOLONG` when
`length + tag_length >= PATHLEN_MAX`; otherwise 1 if `lstat` finds the
marker and 0 if not. -/
def filedir_hidden (cow : Bool) (fs : Fs) (p : List Char) (length : Nat) : Int :=
  if cow = false then 0
  else
    let len := if length = 0 then p.length else length
    if PATHLEN_MAX ≤ len + HIDETAG_L.length then -ENAMETOOLONG
    else if (fs ((p.take len) ++ HIDETAG_L)).isSome then 1 else 0

/-- The pointer loop `while (*walk != '\0' && *walk != '/') walk++`
(general.c:83): from offset `i`, advance over the maximal run of
non-separator bytes; the string ends at `s.length` (the terminator). -/
def walkNonSlash (s : List Char) (i : Nat) : Nat :=
  i + ((s.drop i).takeWhile (fun c => !(c == '/'))).length

/-- The pointer loop `while (*walk == '/') walk++` (general.c:79 and 90):
from offset `i`, advance over the maximal run of separator bytes. -/
def walkSlash (s : List Char) (i : Nat) : Nat :=
  i + ((s.drop i).takeWhile (fun c => c == '/')).length

/-- The `do { ... } while (*walk != '\0')` loop of `path_hidden`
(general.c:81-91), with explicit fuel so that the definition computes
(each iteration strictly advances the offset, so fuel `s.length + 1`
is never exhausted; the fuel-0 result is unreachable from `path_hidden`).
Each iteration walks to the end of the current component, tests that
prefix with `filedir_hidden`, returns its result when non-zero (hidden,
or an error), then skips the following separators and continues unless
the terminator was reached. -/
def hiddenLoop (cow : Bool) (fs : Fs) (s : List Char) : Nat → Nat → Int
  | 0, _ => 0
  | fuel + 1, i =>
    if filedir_hidden cow fs s (walkNonSlash s i) ≠ 0 then
      filedir_hidden cow fs s (walkNonSlash s i)
    else if walkSlash s (walkNonSlash s i) < s.length then
      hiddenLoop cow fs s fuel (walkSlash s (walkNonSlash s i))
    else 0

/-- The sequence of prefix lengths (`walk - whiteoutpath`) that the
`do`-loop of `path_hidden` hands to `filedir_hidden`, with the same
fuel discipline as `hiddenLoop`. -/
def checkedBoundaries (s : List Char) : Nat → Nat → List Nat
  | 0, _ => []
  | fuel + 1, i =>
    if walkSlash s (walkNonSlash s i) < s.length then
      walkNonSlash s i :: checkedBoundaries s fuel (walkSlash s (walkNonSlash s i))
    else [walkNonSlash s i]

/-- `path_hidden` (general.c:67-94): 0 when COW is disabled; build
`branch_root ++ METADIR ++ path` (returning 0, "not hidden", when that
fails); then start the walk at `path_len + strlen(METADIR) - 1`, skip
the separators there, and run the per-component marker checks. -/
def path_hidden (cfg : Cfg) (fs : Fs) (p : List Char) (branch : Nat) : Int :=
  if cfg.cow_enabled = false then 0
  else if (build_path PATHLEN_MAX [cfg.branches.getD branch [], METADIR_L, p]).err.isSome then 0
  else
    hiddenLoop cfg.cow_enabled fs
      (build_path PATHLEN_MAX [cfg.branches.getD branch [], METADIR_L, p]).buf
      ((build_path PATHLEN_MAX [cfg.branches.getD branch [], METADIR_L, p]).buf.length + 1)
      (walkSlash (build_path PATHLEN_MAX [cfg.branches.getD branch [], METADIR_L, p]).buf
        ((cfg.branches.getD branch []).length + METADIR_L.length - 1))

/-- What happened in one branch visited by the loop of `remove_hidden`:
the marker was `unlink`ed, `rmdir`ed, absent (skipped via `continue`),
or marker-path construction failed (`BUILD_PATH` error or the
`strlen(p) + strlen(HIDETAG) > PATHLEN_MAX` check), aborting with
`-ENAMETOOLONG`. -/
inductive RmAction
  | unlinked
  | rmdired
  | skipped
  | buildFailed
deriving DecidableEq

/-- The `switch (path_is_dir(p))` of `remove_hidden` (general.c:114-118):
an existing regular-file marker is `unlink`ed, an existing directory
marker is `rmdir`ed, an absent marker is skipped (`continue`). -/
def rm_action (fs : Fs) (mk : List Char) : RmAction :=
  match fs mk with
  | some .file => .unlinked
  | some .dir => .rmdired
  | none => .skipped

/-- The `for (i = 0; i <= maxbranch; i++)` body of `remove_hidden`
(general.c:108-119), iterated over the list of branch indices the loop
visits.  Returns the C return value together with the trace of visited
indices and what was done at each.  Deletion results of `unlink`/`rmdir`
are discarded by the C code, so the filesystem is consulted only through
`path_is_dir` and deletions are recorded in the trace. -/
def rmLoop (cfg : Cfg) (fs : Fs) (p : List Char) : List Nat → Int × List (Nat × RmAction)
  | [] => (0, [])
  | i :: rest =>
    if (build_path PATHLEN_MAX [cfg.branches.getD i [], METADIR_L, p]).err.isSome then
      (-ENAMETOOLONG, [(i, .buildFailed)])
    else if PATHLEN_MAX <
        (build_path PATHLEN_MAX [cfg.branches.getD i [], METADIR_L, p]).buf.length
          + HIDETAG_L.length then
      (-ENAMETOOLONG, [(i, .buildFailed)])
    else
      ((rmLoop cfg fs p rest).1,
        (i, rm_action fs
            ((build_path PATHLEN_MAX [cfg.branches.getD i [], METADIR_L, p]).buf ++ HIDETAG_L))
          :: (rmLoop cfg fs p rest).2)

/-- `remove_hidden` (general.c:100-122): 0 when COW is disabled;
`maxbranch == -1` is replaced by `uopt.nbranches` and the loop then runs
`i = 0, ..., maxbranch` inclusive (an index list of length
`maxbranch + 1`, empty when `maxbranch` is negative and not -1). -/
def remove_hidden (cfg : Cfg) (fs : Fs) (p : List Char) (maxbranch : Int) :
    Int × List (Nat × RmAction) :=
  if cfg.cow_enabled = false then (0, [])
  else
    let mb : Int := if maxbranch = -1 then (cfg.branches.length : Int) else maxbranch
    rmLoop cfg fs p (List.range (mb + 1).toNat)

/-- The action `remove_hidden` performs in branch `i` when marker-path
construction succeeds there: kind-specific deletion of an existing
marker, skip when absent. -/
def rm_expected (cfg : Cfg) (fs : Fs) (p : List Char) (i : Nat) : RmAction :=
  rm_action fs
    ((build_path PATHLEN_MAX [cfg.branches.getD i [], METADIR_L, p]).buf ++ HIDETAG_L)

/-- Create each of the given directories when missing (leaving existing
entries alone). -/
def ensure_dirs (fs : Fs) (ds : List (List Char)) : Fs :=
  fun q => if q ∈ ds ∧ fs q = none then some .dir else fs q

/-- The ancestor directories of `branch_root ++ metapath` (every proper
prefix ending just before a separator). -/
def meta_dirs (cfg : Cfg) (metapath : List Char) (b : Nat) : List (List Char) :=
  let full := cfg.branches.getD b [] ++ metapath
  (List.range full.length).filterMap
    (fun k => if full.getD k NUL = '/' ∧ 0 < k then some (full.take k) else none)

/-- Record a newly created entry in the filesystem. -/
def updateFs (fs : Fs) (p : List Char) (k : FKind) : Fs :=
  fun q => if q = p then some k else fs q

/-- The two marker kinds of `enum whiteout` (`WHITEOUT_FILE` /
`WHITEOUT_DIR`). -/
inductive Whiteout
  | file
  | dir
deriving DecidableEq

/-- The filesystem after the `path_create_cutlast(metapath, branch_rw,
branch_rw)` step of `do_create_whiteout` (general.c:153; the function
itself is outside the given sources and is modelled from the spec:
"ensures the Metadata Tree directories along that path exist, creating
any missing ones" — its return value is ignored by the C code). -/
def dcw_fs1 (cfg : Cfg) (fs : Fs) (p : List Char) (branch_rw : Nat) : Fs :=
  ensure_dirs fs (meta_dirs cfg (build_path PATHLEN_MAX [METADIR_L, p]).buf branch_rw)

/-- The marker path `do_create_whiteout` operates on: the second
`BUILD_PATH` result with `HIDETAG` appended by `strcat` (general.c:156-157). -/
def dcw_marker (cfg : Cfg) (p : List Char) (branch_rw : Nat) : List Char :=
  (build_path PATHLEN_MAX [cfg.branches.getD branch_rw [],
    (build_path PATHLEN_MAX [METADIR_L, p]).buf]).buf ++ HIDETAG_L

/-- `do_create_whiteout` (general.c:144-171).  Build
`METADIR ++ path` (failure returns -1); run `path_create_cutlast`
(see `dcw_fs1`); build `branch_root ++ metapath` (failure returns -1);
append `HIDETAG` (`strcat`, unchecked); then for `WHITEOUT_FILE` run
`open(p, O_WRONLY | O_CREAT)` — which succeeds on an existing regular
file, fails on a directory — followed by `close`; for `WHITEOUT_DIR`
run `mkdir(p)`, whose failure (including `EEXIST` when the marker
directory already exists) is logged and returned. -/
def do_create_whiteout (cfg : Cfg) (fs : Fs) (p : List Char) (branch_rw : Nat)
    (mode : Whiteout) : Int × Fs :=
  if (build_path PATHLEN_MAX [METADIR_L, p]).err.isSome then (-1, fs)
  else if (build_path PATHLEN_MAX [cfg.branches.getD branch_rw [],
      (build_path PATHLEN_MAX [METADIR_L, p]).buf]).err.isSome then
    (-1, dcw_fs1 cfg fs p branch_rw)
  else
    match mode with
    | .file =>
      match dcw_fs1 cfg fs p branch_rw (dcw_marker cfg p branch_rw) with
      | none => (0, updateFs (dcw_fs1 cfg fs p branch_rw) (dcw_marker cfg p branch_rw) .file)
      | some .file => (0, dcw_fs1 cfg fs p branch_rw)
      | some .dir => (-1, dcw_fs1 cfg fs p branch_rw)
    | .dir =>
      match dcw_fs1 cfg fs p branch_rw (dcw_marker cfg p branch_rw) with
      | none => (0, updateFs (dcw_fs1 cfg fs p branch_rw) (dcw_marker cfg p branch_rw) .dir)
      | some _ => (-1, dcw_fs1 cfg fs p branch_rw)

/-- The number of bytes `do_create_whiteout` stores into its local
buffer `p` (of capacity `PATHLEN_MAX`): the bytes written by the second
`BUILD_PATH` plus the unchecked `strcat(p, HIDETAG)`, which appends the
tag and a terminator starting at the current string end.  `none` when a
build fails before the `strcat` is reached. -/
def do_create_whiteout_pbytes (cfg : Cfg) (p : List Char) (branch_rw : Nat) : Option Nat :=
  let m := build_path PATHLEN_MAX [METADIR_L, p]
  if m.err.isSome then none
  else
    let r := build_path PATHLEN_MAX [cfg.branches.getD branch_rw [], m.buf]
    if r.err.isSome then none
    else some (max r.hi (r.buf.length + HIDETAG_L.length + 1))

/-- The acting identity of the calling request, as read from
`fuse_get_context()`. -/
structure FuseCtx where
  uid : Nat
  gid : Nat

/-- `set_owner` (general.c:210-222).  The outcome of the `lchown` call
is external and passed as `chownErr` (`none` = success, `some e` =
failure with `errno = e`).  Returns the C return value together with
whether `lchown` was invoked at all: the code calls it only when both
`ctx->uid != 0` and `ctx->gid != 0`. -/
def set_owner (ctx : FuseCtx) (chownErr : Option Nat) : Int × Bool :=
  if ctx.uid ≠ 0 ∧ ctx.gid ≠ 0 then
    match chownErr with
    | none => (0, true)
    | some e => (-(e : Int), true)
  else (0, false)

/-- Modelled from the spec: "the superuser identity" of section 4.4
(root, i.e. user id 0). -/
def isSuperuser (ctx : FuseCtx) : Prop := ctx.uid = 0

/-- A union path presented as its non-empty, separator-free components:
`renderPath [c1, ..., cn]` is the canonical path `/c1/.../cn`. -/
def renderPath (cs : List (List Char)) : List Char :=
  (cs.map (fun c => '/' :: c)).flatten

/-- Well-formedness of a component decomposition: every component is
non-empty and contains no separator. -/
abbrev okComponents (cs : List (List Char)) : Prop :=
  ∀ c ∈ cs, c ≠ [] ∧ '/' ∉ c

/-- The marker paths of every ancestor prefix of the union path
`renderPath cs` (leaf included) inside the metadata tree of the branch
rooted at `bp` (which ends with a separator): for each non-empty
component prefix, `bp ++ ".unionfs" ++ "/c1/.../cm" ++ HIDETAG`. -/
def ancestorMarkers (bp : List Char) (cs : List (List Char)) : List (List Char) :=
  (List.range cs.length).map
    (fun m => bp ++ metadirNS_L ++ renderPath (cs.take (m + 1)) ++ HIDETAG_L)

/-- The first non-zero value of a list of `Int`s, 0 when there is none
(the early-exit discipline of `path_hidden`'s loop). -/
def firstNonzero (l : List Int) : Int := ((l.find? (fun x => !(x == 0))).getD 0)

/-! ## Helper lemmas -/

theorem ensure_dirs_mem_ne_none (fs : Fs) (ds : List (List Char)) (q : List Char)
    (hq : q ∈ ds) : ensure_dirs fs ds q ≠ none := by
  unfold ensure_dirs
  by_cases h : fs q = none
  · rw [if_pos ⟨hq, h⟩]; simp
  · rw [if_neg (fun hc => h hc.2)]; exact h

theorem ensure_dirs_absorb (fs : Fs) (ds : List (List Char))
    (h : ∀ q ∈ ds, fs q ≠ none) : ensure_dirs fs ds = fs := by
  funext q
  unfold ensure_dirs
  by_cases hq : q ∈ ds
  · rw [if_neg (fun hc => h q hq hc.2)]
  · rw [if_neg (fun hc => hq hc.1)]

theorem updateFs_ne_none (fs : Fs) (mk q : List Char) (k : FKind)
    (h : fs q ≠ none) : updateFs fs mk k q ≠ none := by
  unfold updateFs
  by_cases hq : q = mk
  · rw [if_pos hq]; simp
  · rw [if_neg hq]; exact h

theorem rmLoop_result_cases (cfg : Cfg) (fs : Fs) (p : List Char) (l : List Nat) :
    (rmLoop cfg fs p l).1 = 0 ∨ (rmLoop cfg fs p l).1 = -ENAMETOOLONG := by
  induction l with
  | nil => left; rfl
  | cons i rest ih =>
    unfold rmLoop
    split_ifs with h1 h2
    · right; rfl
    · right; rfl
    · simpa using ih

theorem rmLoop_all_fit (cfg : Cfg) (fs : Fs) (p : List Char) (l : List Nat)
    (hfit : ∀ i ∈ l,
      (build_path PATHLEN_MAX [cfg.branches.getD i [], METADIR_L, p]).err = none ∧
      (build_path PATHLEN_MAX [cfg.branches.getD i [], METADIR_L, p]).buf.length
        + HIDETAG_L.length ≤ PATHLEN_MAX) :
    rmLoop cfg fs p l = (0, l.map (fun i => (i, rm_expected cfg fs p i))) := by
  induction l with
  | nil => rfl
  | cons i rest ih =>
    obtain ⟨h1, h2⟩ := hfit i (List.mem_cons_self i rest)
    unfold rmLoop
    rw [if_neg (by rw [h1]; simp), if_neg (by omega)]
    rw [ih (fun j hj => hfit j (List.mem_cons_of_mem _ hj))]
    simp only [List.map_cons]
    rfl

/-! ## Theorems settling the claims -/

/-- C7: `build_path` called with a missing or empty first segment fails
with the taxonomy's `InvalidArgument` error (realized as `errno = EIO`),
not with success and not with a different error code. -/
theorem build_path_empty_first_invalid (maxLen : Nat) (args : List (List Char))
    (h : args.head? = none ∨ args.head? = some []) :
    (build_path maxLen args).err = some invalidArgumentErr := by
  cases args with
  | nil => rfl
  | cons a rest =>
    rcases h with h | h
    · simp at h
    · simp only [List.head?_cons, Option.some.injEq] at h
      subst h
      rfl

/-- Witness for C7 at the concrete input of a missing first segment. -/
theorem build_path_empty_first_invalid_witness :
    (build_path 1024 ([] : List (List Char))).err = some invalidArgumentErr :=
  build_path_empty_first_invalid 1024 [] (Or.inl rfl)

/-- C2 (code-bug evidence): the path-buffer bounds are violated by the
code.  First, `build_path` with `max_len = 5` on segments `"abcd"`,
`"x"` fails with `ENAMETOOLONG` but has stored 6 bytes (its truncating
terminator lands at offset 5, one past a 5-byte buffer).  Second,
`do_create_whiteout` on a 1012-byte union path under branch root
`"/b/"` reaches the unchecked `strcat(p, HIDETAG)` and stores 1032
bytes into its `PATHLEN_MAX`-byte (1024) local buffer. -/
theorem build_path_overrun_evidence :
    ((build_path 5 ["abcd".toList, "x".toList]).err = some BuildErr.enametoolong
      ∧ (build_path 5 ["abcd".toList, "x".toList]).hi = 6 ∧ 5 < 6)
    ∧ (do_create_whiteout_pbytes ⟨true, ["/b/".toList]⟩ ('/' :: List.replicate 1011 'a') 0
        = some 1032 ∧ PATHLEN_MAX < 1032) := by
  exact ⟨⟨by decide, by decide, by decide⟩, ⟨by decide, by decide⟩⟩

/-- C4 (code-bug evidence): `remove_hidden` with `maxbranch = -1` and a
single branch (`nbranches = 1`) visits branch indices 0 and 1 — index
1 equals `nbranches` and is outside the branch array (the model reads
the out-of-range entry as the empty path, making the visit observable
as a `buildFailed` step). -/
theorem remove_hidden_out_of_range_evidence :
    remove_hidden ⟨true, ["/b/".toList]⟩ (fun _ => none) "/f".toList (-1)
      = (-ENAMETOOLONG, [(0, RmAction.skipped), (1, RmAction.buildFailed)])
    ∧ (Cfg.mk true ["/b/".toList]).branches.length = 1 := by
  exact ⟨by decide, by decide⟩

/-- C8 (counterexample): on the reference platform `char` is signed, so
`string_hash` on the single byte 0x80 differs from the spec's
unsigned-byte ELF hash. -/
theorem string_hash_spec_cex : string_hash [128] ≠ elfhash_spec [128] := by decide

/-- C8 (amended): `string_hash` computes the spec's fixed ELF-style
32-bit hash bit-for-bit on every input whose bytes are all below 0x80
(in particular all the reference vectors hold); for larger bytes the
signed-`char` addition diverges from the spec's algorithm. -/
theorem string_hash_matches_spec :
    (∀ s : List Nat, (∀ c ∈ s, c < 128) → string_hash s = elfhash_spec s)
    ∧ string_hash [] = 0 ∧ string_hash [97] = 97 ∧ string_hash [97, 98] = 1650 := by
  refine ⟨?_, by decide, by decide, by decide⟩
  have H : ∀ (s : List Nat) (a : Nat), (∀ c ∈ s, c < 128) →
      s.foldl elfhash_step a = s.foldl elfhash_spec_step a := by
    intro s
    induction s with
    | nil => intro a _; rfl
    | cons c t ih =>
      intro a hc
      have hcc : c < 128 := hc c (List.mem_cons_self c t)
      simp only [List.foldl_cons]
      rw [show elfhash_step a c = elfhash_spec_step a c from by
        simp only [elfhash_step, elfhash_spec_step, if_pos hcc]]
      exact ih _ (fun x hx => hc x (List.mem_cons_of_mem _ hx))
  exact fun s hs => H s 0 hs

/-- Witness for C8's amended theorem at the concrete vector "ab". -/
theorem string_hash_matches_spec_witness :
    string_hash [97, 98] = elfhash_spec [97, 98] :=
  string_hash_matches_spec.1 [97, 98] (by decide)

/-- C9 (counterexample): the identity uid 1000 / gid 0 is not the
superuser, yet `set_owner` does not apply it (the code requires both
`uid != 0` and `gid != 0` before calling `lchown`). -/
theorem set_owner_superuser_cex :
    ¬ isSuperuser ⟨1000, 0⟩ ∧ (set_owner ⟨1000, 0⟩ none).2 = false :=
  ⟨by show (1000 : Nat) ≠ 0; decide, by decide⟩

/-- C9 (amended): `set_owner` applies the acting identity's user and
group exactly when both its uid and its gid are non-zero; when the
change is applied and `lchown` succeeds, or when it is not attempted,
`set_owner` returns success. -/
theorem set_owner_applies_iff (ctx : FuseCtx) (chownErr : Option Nat) :
    ((set_owner ctx chownErr).2 = true ↔ (ctx.uid ≠ 0 ∧ ctx.gid ≠ 0))
    ∧ (chownErr = none → (set_owner ctx chownErr).1 = 0)
    ∧ ((set_owner ctx chownErr).2 = false → (set_owner ctx chownErr).1 = 0) := by
  unfold set_owner
  by_cases h : ctx.uid ≠ 0 ∧ ctx.gid ≠ 0
  · rw [if_pos h]
    cases chownErr with
    | none => exact ⟨by simpa using h, fun _ => rfl, by simp⟩
    | some e => exact ⟨by simpa using h, by simp, by simp⟩
  · rw [if_neg h]
    exact ⟨by simpa using h, fun _ => rfl, fun _ => rfl⟩

/-- Witness for C9's amended theorem: a non-root, non-root-group
identity with a successful `lchown` yields success. -/
theorem set_owner_applies_iff_witness :
    (set_owner ⟨1000, 5⟩ none).1 = 0 :=
  (set_owner_applies_iff ⟨1000, 5⟩ none).2.1 rfl

theorem strstrIdx_eq_some_iff (pat : List Char) (s : List Char) (i : Nat) :
    strstrIdx pat s = some i ↔
      (i ≤ s.length ∧ pat.isPrefixOf (s.drop i) = true ∧
       ∀ j < i, pat.isPrefixOf (s.drop j) = false) := by
  induction s generalizing i with
  | nil =>
    unfold strstrIdx
    by_cases hp : pat.isEmpty
    · rw [if_pos hp]
      have hpat : pat = [] := List.isEmpty_iff.mp hp
      subst hpat
      constructor
      · intro h
        obtain rfl : i = 0 := (Option.some.inj h).symm
        exact ⟨Nat.le_refl 0, rfl, fun j hj => absurd hj (Nat.not_lt_zero j)⟩
      · rintro ⟨h1, _, _⟩
        obtain rfl : i = 0 := Nat.le_zero.mp h1
        rfl
    · rw [if_neg hp]
      have hpat : pat ≠ [] := fun h => hp (by simp [h])
      constructor
      · intro h; exact Option.noConfusion h
      · rintro ⟨h1, h2, _⟩
        obtain rfl : i = 0 := Nat.le_zero.mp h1
        obtain ⟨c, t, rfl⟩ : ∃ c t, pat = c :: t := by
          cases pat with
          | nil => exact absurd rfl hpat
          | cons c t => exact ⟨c, t, rfl⟩
        simp [List.isPrefixOf] at h2
  | cons c t ih =>
    unfold strstrIdx
    by_cases hpre : pat.isPrefixOf (c :: t) = true
    · rw [if_pos hpre]
      constructor
      · intro h
        obtain rfl : i = 0 := (Option.some.inj h).symm
        exact ⟨Nat.zero_le _, by simpa using hpre, fun j hj => absurd hj (Nat.not_lt_zero j)⟩
      · rintro ⟨_, _, hmin⟩
        cases i with
        | zero => rfl
        | succ n =>
          have := hmin 0 (Nat.succ_pos n)
          rw [List.drop_zero] at this
          rw [this] at hpre
          exact Bool.noConfusion hpre
    · rw [if_neg hpre]
      have hpre' : pat.isPrefixOf (c :: t) = false := Bool.eq_false_iff.mpr hpre
      constructor
      · intro h
        rcases Option.map_eq_some'.mp h with ⟨n, hn, rfl⟩
        rcases (ih n).mp hn with ⟨h1, h2, h3⟩
        refine ⟨by simpa using Nat.succ_le_succ h1, by simpa using h2, ?_⟩
        intro j hj
        cases j with
        | zero => simpa using hpre'
        | succ m => simpa using h3 m (by omega)
      · rintro ⟨h1, h2, h3⟩
        cases i with
        | zero =>
          rw [List.drop_zero] at h2
          rw [h2] at hpre'
          exact Bool.noConfusion hpre'
        | succ n =>
          have hsome : strstrIdx pat t = some n := (ih n).mpr
            ⟨by simpa using h1, by simpa using h2,
             fun j hj => by simpa using h3 (j + 1) (by omega)⟩
          rw [hsome]
          rfl

/-- C6: `whiteout_tag(name)` returns the offset of the tag suffix iff
`name` ends with the fixed tag (the tag is a prefix of the remainder at
offset `i` and `i + |HIDETAG| = |name|`), the prefix before it is
non-empty (`0 < i`), and the matched region is exactly the trailing tag
(there is no occurrence of the tag before `i`, so the first match has
exactly the tag's length); in every other case it returns `none`. -/
theorem whiteout_tag_iff (fname : List Char) (i : Nat) :
    whiteout_tag fname = some i ↔
      (i + HIDETAG_L.length = fname.length ∧ 0 < i ∧
       HIDETAG_L.isPrefixOf (fname.drop i) = true ∧
       ∀ j < i, HIDETAG_L.isPrefixOf (fname.drop j) = false) := by
  cases hs : strstrIdx HIDETAG_L fname with
  | none =>
    simp only [whiteout_tag, hs]
    constructor
    · intro h; exact Option.noConfusion h
    · rintro ⟨h1, _, h3, h4⟩
      have : strstrIdx HIDETAG_L fname = some i :=
        (strstrIdx_eq_some_iff _ _ _).mpr ⟨by omega, h3, h4⟩
      rw [hs] at this
      exact Option.noConfusion this
  | some k =>
    simp only [whiteout_tag, hs]
    rcases (strstrIdx_eq_some_iff _ _ _).mp hs with ⟨hk1, hk2, hk3⟩
    by_cases hcond : k ≠ 0 ∧ fname.length - k = HIDETAG_L.length
    · rw [if_pos hcond]
      constructor
      · intro h
        obtain rfl : k = i := Option.some.inj h
        exact ⟨by omega, by omega, hk2, hk3⟩
      · rintro ⟨h1, h2, h3, h4⟩
        have hik : i = k := by
          rcases Nat.lt_trichotomy i k with hlt | heq | hgt
          · have := hk3 i hlt
            rw [this] at h3
            exact Bool.noConfusion h3
          · exact heq
          · have := h4 k hgt
            rw [this] at hk2
            exact Bool.noConfusion hk2
        subst hik
        rfl
    · rw [if_neg hcond]
      constructor
      · intro h; exact Option.noConfusion h
      · rintro ⟨h1, h2, h3, h4⟩
        have hik : i = k := by
          rcases Nat.lt_trichotomy i k with hlt | heq | hgt
          · have := hk3 i hlt
            rw [this] at h3
            exact Bool.noConfusion h3
          · exact heq
          · have := h4 k hgt
            rw [this] at hk2
            exact Bool.noConfusion hk2
        subst hik
        exact absurd ⟨by omega, by omega⟩ hcond

theorem dcw_fs1_absorb_update (cfg : Cfg) (fs : Fs) (p : List Char) (b : Nat)
    (mk : List Char) (k : FKind) :
    dcw_fs1 cfg (updateFs (dcw_fs1 cfg fs p b) mk k) p b = updateFs (dcw_fs1 cfg fs p b) mk k := by
  unfold dcw_fs1
  apply ensure_dirs_absorb
  intro q hq
  exact updateFs_ne_none _ _ _ _ (ensure_dirs_mem_ne_none _ _ _ hq)

theorem dcw_fs1_absorb_self (cfg : Cfg) (fs : Fs) (p : List Char) (b : Nat) :
    dcw_fs1 cfg (dcw_fs1 cfg fs p b) p b = dcw_fs1 cfg fs p b := by
  unfold dcw_fs1
  apply ensure_dirs_absorb
  intro q hq
  exact ensure_dirs_mem_ne_none _ _ _ hq

/-- C3 (counterexample): creating a directory-kind whiteout twice is not
idempotent.  With one branch rooted at `"/b/"` and an initially empty
filesystem, the first `do_create_whiteout(_, 0, WHITEOUT_DIR)` for path
`"/d"` succeeds and leaves the marker directory in place with the
correct kind, yet the second call returns an error (mkdir reports
`EEXIST`, which the code logs and propagates). -/
theorem do_create_whiteout_idem_cex :
    (do_create_whiteout ⟨true, ["/b/".toList]⟩ (fun _ => none) "/d".toList 0 .dir).1 = 0
    ∧ (do_create_whiteout ⟨true, ["/b/".toList]⟩ (fun _ => none) "/d".toList 0 .dir).2
        "/b/.unionfs/d_HIDDEN~".toList = some FKind.dir
    ∧ (do_create_whiteout ⟨true, ["/b/".toList]⟩
        (do_create_whiteout ⟨true, ["/b/".toList]⟩ (fun _ => none) "/d".toList 0 .dir).2
        "/d".toList 0 .dir).1 ≠ 0 := by
  exact ⟨by decide, by decide, by decide⟩

/-- C3 (amended): `do_create_whiteout` is idempotent for the file kind —
if a first file-kind call succeeds, a second call returns success and
leaves the filesystem unchanged (open with `O_CREAT` and no `O_EXCL`
treats the existing marker as success).  For the directory kind a
second call after a successful first one returns the `mkdir` failure
(-1) while still leaving the filesystem state unchanged. -/
theorem do_create_whiteout_second_call (cfg : Cfg) (fs : Fs) (p : List Char) (b : Nat) :
    ((do_create_whiteout cfg fs p b .file).1 = 0 →
      do_create_whiteout cfg (do_create_whiteout cfg fs p b .file).2 p b .file
        = (0, (do_create_whiteout cfg fs p b .file).2))
    ∧ ((do_create_whiteout cfg fs p b .dir).1 = 0 →
      do_create_whiteout cfg (do_create_whiteout cfg fs p b .dir).2 p b .dir
        = (-1, (do_create_whiteout cfg fs p b .dir).2)) := by
  by_cases hm : (build_path PATHLEN_MAX [METADIR_L, p]).err.isSome
  · constructor <;>
      (intro h;
       simp only [do_create_whiteout, if_pos hm] at h;
       exact absurd h (by decide))
  · by_cases hr : (build_path PATHLEN_MAX [cfg.branches.getD b [],
        (build_path PATHLEN_MAX [METADIR_L, p]).buf]).err.isSome
    · constructor <;>
        (intro h;
         simp only [do_create_whiteout, if_neg hm, if_pos hr] at h;
         exact absurd h (by decide))
    · constructor
      · intro h
        cases hfk : dcw_fs1 cfg fs p b (dcw_marker cfg p b) with
        | none =>
          have hfirst : do_create_whiteout cfg fs p b .file
              = (0, updateFs (dcw_fs1 cfg fs p b) (dcw_marker cfg p b) .file) := by
            simp only [do_create_whiteout, if_neg hm, if_neg hr, hfk]
          rw [hfirst]
          have habs := dcw_fs1_absorb_update cfg fs p b (dcw_marker cfg p b) .file
          have hg1mk : updateFs (dcw_fs1 cfg fs p b) (dcw_marker cfg p b) FKind.file
              (dcw_marker cfg p b) = some FKind.file := by
            unfold updateFs; rw [if_pos rfl]
          simp only [do_create_whiteout, if_neg hm, if_neg hr, habs, hg1mk]
        | some k =>
          cases k with
          | file =>
            have hfirst : do_create_whiteout cfg fs p b .file = (0, dcw_fs1 cfg fs p b) := by
              simp only [do_create_whiteout, if_neg hm, if_neg hr, hfk]
            rw [hfirst]
            have habs := dcw_fs1_absorb_self cfg fs p b
            simp only [do_create_whiteout, if_neg hm, if_neg hr, habs, hfk]
          | dir =>
            have hfirst : (do_create_whiteout cfg fs p b .file).1 = -1 := by
              simp only [do_create_whiteout, if_neg hm, if_neg hr, hfk]
            rw [hfirst] at h
            exact absurd h (by decide)
      · intro h
        cases hfk : dcw_fs1 cfg fs p b (dcw_marker cfg p b) with
        | none =>
          have hfirst : do_create_whiteout cfg fs p b .dir
              = (0, updateFs (dcw_fs1 cfg fs p b) (dcw_marker cfg p b) .dir) := by
            simp only [do_create_whiteout, if_neg hm, if_neg hr, hfk]
          rw [hfirst]
          have habs := dcw_fs1_absorb_update cfg fs p b (dcw_marker cfg p b) .dir
          have hg1mk : updateFs (dcw_fs1 cfg fs p b) (dcw_marker cfg p b) FKind.dir
              (dcw_marker cfg p b) = some FKind.dir := by
            unfold updateFs; rw [if_pos rfl]
          simp only [do_create_whiteout, if_neg hm, if_neg hr, habs, hg1mk]
        | some k =>
          have hfirst : (do_create_whiteout cfg fs p b .dir).1 = -1 := by
            simp only [do_create_whiteout, if_neg hm, if_neg hr, hfk]
          rw [hfirst] at h
          exact absurd h (by decide)

/-- Witness for C3's amended theorem: a concrete successful file-kind
creation whose repetition succeeds and changes nothing. -/
theorem do_create_whiteout_second_call_witness :
    do_create_whiteout ⟨true, ["/b/".toList]⟩
        (do_create_whiteout ⟨true, ["/b/".toList]⟩ (fun _ => none) "/f".toList 0 .file).2
        "/f".toList 0 .file
      = (0, (do_create_whiteout ⟨true, ["/b/".toList]⟩ (fun _ => none) "/f".toList 0 .file).2) :=
  (do_create_whiteout_second_call ⟨true, ["/b/".toList]⟩ (fun _ => none) "/f".toList 0).1
    (by decide)

/-- C5: `remove_hidden` is best-effort cleanup.  Whenever marker-path
construction succeeds and fits in every visited branch, the call reports
success (0) — in particular also when no marker exists anywhere in range
— and its trace deletes an existing file marker by `unlink`, an existing
directory marker by `rmdir`, and skips absent markers without error;
deletion outcomes are discarded by the code, so they cannot be
escalated.  Unconditionally, the only values `remove_hidden` ever
returns are 0 and `-ENAMETOOLONG` (the latter from marker-path
construction, aborting the remaining branches immediately). -/
theorem remove_hidden_best_effort :
    (∀ (cfg : Cfg) (fs : Fs) (p : List Char) (maxbranch : Int),
      cfg.cow_enabled = true →
      (∀ i ∈ List.range
          ((if maxbranch = -1 then (cfg.branches.length : Int) else maxbranch) + 1).toNat,
        (build_path PATHLEN_MAX [cfg.branches.getD i [], METADIR_L, p]).err = none ∧
        (build_path PATHLEN_MAX [cfg.branches.getD i [], METADIR_L, p]).buf.length
          + HIDETAG_L.length ≤ PATHLEN_MAX) →
      remove_hidden cfg fs p maxbranch =
        (0, (List.range
            ((if maxbranch = -1 then (cfg.branches.length : Int) else maxbranch) + 1).toNat).map
          (fun i => (i, rm_expected cfg fs p i))))
    ∧ (∀ (cfg : Cfg) (fs : Fs) (p : List Char) (maxbranch : Int),
      (remove_hidden cfg fs p maxbranch).1 = 0 ∨
      (remove_hidden cfg fs p maxbranch).1 = -ENAMETOOLONG) := by
  constructor
  · intro cfg fs p maxbranch hcow hfit
    unfold remove_hidden
    rw [if_neg (by rw [hcow]; exact fun h => Bool.noConfusion h)]
    exact rmLoop_all_fit cfg fs p _ hfit
  · intro cfg fs p maxbranch
    unfold remove_hidden
    by_cases hcow : cfg.cow_enabled = false
    · rw [if_pos hcow]; left; rfl
    · rw [if_neg hcow]; exact rmLoop_result_cases cfg fs p _

/-- Witness for C5: two branches, a file marker only in the second one;
the call succeeds, skips branch 0 and unlinks in branch 1. -/
theorem remove_hidden_best_effort_witness :
    remove_hidden ⟨true, ["/b/".toList, "/c/".toList]⟩
        (fun q => if q = "/c/.unionfs/f_HIDDEN~".toList then some FKind.file else none)
        "/f".toList 1
      = (0, [(0, RmAction.skipped), (1, RmAction.unlinked)]) :=
  (remove_hidden_best_effort.1 ⟨true, ["/b/".toList, "/c/".toList]⟩
      (fun q => if q = "/c/.unionfs/f_HIDDEN~".toList then some FKind.file else none)
      "/f".toList 1 rfl (by decide)).trans (by decide)

theorem takeWhile_append_all (q : Char → Bool) (c r : List Char)
    (hc : ∀ x ∈ c, q x = true) : (c ++ r).takeWhile q = c ++ r.takeWhile q := by
  induction c with
  | nil => rfl
  | cons a t ih =>
    rw [List.cons_append, List.takeWhile_cons, if_pos (hc a (List.mem_cons_self a t)),
      ih (fun x hx => hc x (List.mem_cons_of_mem a hx)), List.cons_append]

theorem takeWhile_slash_component (c r : List Char) (hne : c ≠ []) (hs : '/' ∉ c) :
    (('/' :: (c ++ r)).takeWhile (fun x => x == '/')).length = 1 := by
  rw [List.takeWhile_cons, if_pos (by simp)]
  cases c with
  | nil => exact absurd rfl hne
  | cons a t =>
    have ha : a ≠ '/' := fun h => hs (by rw [← h]; exact List.mem_cons_self a t)
    rw [List.cons_append, List.takeWhile_cons, if_neg (by simp [ha])]
    rfl

theorem takeWhile_nonslash_component (c r : List Char) (hs : '/' ∉ c)
    (hr : r = [] ∨ ∃ r2, r = '/' :: r2) :
    (c ++ r).takeWhile (fun x => !(x == '/')) = c := by
  have hall : ∀ x ∈ c, (!(x == '/')) = true := by
    intro x hx
    have hxne : x ≠ '/' := fun h => hs (h ▸ hx)
    simp [hxne]
  rw [takeWhile_append_all _ _ _ hall]
  rcases hr with rfl | ⟨r2, rfl⟩
  · simp
  · rw [List.takeWhile_cons, if_neg (by simp)]
    simp

theorem walkSlash_append (A t : List Char) :
    walkSlash (A ++ t) A.length = A.length + (t.takeWhile (fun c => c == '/')).length := by
  unfold walkSlash
  rw [List.drop_left]

theorem walkNonSlash_append (A t : List Char) :
    walkNonSlash (A ++ t) A.length = A.length + (t.takeWhile (fun c => !(c == '/'))).length := by
  unfold walkNonSlash
  rw [List.drop_left]

theorem renderPath_cons (c : List Char) (l : List (List Char)) :
    renderPath (c :: l) = '/' :: (c ++ renderPath l) := by
  simp [renderPath]

theorem renderPath_append (l1 l2 : List (List Char)) :
    renderPath (l1 ++ l2) = renderPath l1 ++ renderPath l2 := by
  simp [renderPath]

theorem length_le_renderPath (cs : List (List Char)) : cs.length ≤ (renderPath cs).length := by
  induction cs with
  | nil => simp [renderPath]
  | cons c l ih =>
    rw [renderPath_cons]
    simp only [List.length_cons, List.length_append]
    omega

theorem take_append_add (A t : List Char) (n : Nat) :
    (A ++ t).take (A.length + n) = A ++ t.take n := by
  rw [List.take_append]

theorem firstNonzero_map_ite {α : Type} (e : Int) (he : e ≠ 0) (pr : α → Prop)
    [DecidablePred pr] (l : List α) :
    firstNonzero (l.map (fun a => if pr a then e else 0)) =
      if l.any (fun a => decide (pr a)) then e else 0 := by
  induction l with
  | nil => rfl
  | cons a t ih =>
    rw [List.map_cons, List.any_cons]
    by_cases h : pr a
    · rw [if_pos h]
      unfold firstNonzero
      rw [List.find?_cons_of_pos _ (by simp [he])]
      rw [if_pos (by simp [h])]
      rfl
    · rw [if_neg h]
      unfold firstNonzero
      rw [List.find?_cons_of_neg _ (by simp)]
      have hcond : (decide (pr a) || t.any fun x => decide (pr x)) =
          (t.any fun x => decide (pr x)) := by
        simp [h]
      rw [hcond]
      exact ih

theorem hiddenLoop_eq_firstNonzero (cow : Bool) (fs : Fs) (s : List Char) :
    ∀ (fuel i : Nat),
      hiddenLoop cow fs s fuel i =
        firstNonzero ((checkedBoundaries s fuel i).map (fun j => filedir_hidden cow fs s j)) := by
  intro fuel
  induction fuel with
  | zero => intro i; rfl
  | succ f ih =>
    intro i
    simp only [hiddenLoop, checkedBoundaries]
    by_cases h1 : filedir_hidden cow fs s (walkNonSlash s i) ≠ 0
    · rw [if_pos h1]
      by_cases h2 : walkSlash s (walkNonSlash s i) < s.length
      · rw [if_pos h2, List.map_cons]
        unfold firstNonzero
        rw [List.find?_cons_of_pos _ (by simp [h1])]
        rfl
      · rw [if_neg h2, List.map_cons]
        unfold firstNonzero
        rw [List.find?_cons_of_pos _ (by simp [h1])]
        rfl
    · have h0 : filedir_hidden cow fs s (walkNonSlash s i) = 0 := not_not.mp h1
      rw [if_neg h1]
      by_cases h2 : walkSlash s (walkNonSlash s i) < s.length
      · rw [if_pos h2, if_pos h2, List.map_cons]
        unfold firstNonzero
        rw [List.find?_cons_of_neg _ (by simp [h0])]
        exact ih _
      · rw [if_neg h2, if_neg h2, List.map_cons]
        unfold firstNonzero
        rw [List.find?_cons_of_neg _ (by simp [h0])]
        rfl

theorem checkedBoundaries_render (cs : List (List Char)) :
    ∀ (A : List Char) (fuel : Nat), cs ≠ [] → okComponents cs → cs.length ≤ fuel →
    checkedBoundaries (A ++ renderPath cs) fuel (walkSlash (A ++ renderPath cs) A.length) =
      (List.range cs.length).map (fun m => A.length + (renderPath (cs.take (m + 1))).length) := by
  induction cs with
  | nil => intro A fuel hne; exact absurd rfl hne
  | cons c cs2 ih =>
    intro A fuel _ hok hfuel
    obtain ⟨f, rfl⟩ : ∃ f, fuel = f + 1 := ⟨fuel - 1, by simp at hfuel; omega⟩
    obtain ⟨hcne, hcs⟩ := hok c (List.mem_cons_self c cs2)
    have hstart : walkSlash (A ++ renderPath (c :: cs2)) A.length = A.length + 1 := by
      rw [renderPath_cons, walkSlash_append,
        takeWhile_slash_component c (renderPath cs2) hcne hcs]
    have hrs2 : renderPath cs2 = [] ∨ ∃ r2, renderPath cs2 = '/' :: r2 := by
      cases cs2 with
      | nil => left; rfl
      | cons d ds => right; exact ⟨d ++ renderPath ds, renderPath_cons d ds⟩
    have hj : walkNonSlash (A ++ renderPath (c :: cs2)) (A.length + 1)
        = A.length + 1 + c.length := by
      have h1 : A ++ renderPath (c :: cs2) = (A ++ ['/']) ++ (c ++ renderPath cs2) := by
        rw [renderPath_cons]; simp
      have h2 : (A ++ ['/']).length = A.length + 1 := by simp
      calc walkNonSlash (A ++ renderPath (c :: cs2)) (A.length + 1)
          = walkNonSlash ((A ++ ['/']) ++ (c ++ renderPath cs2)) ((A ++ ['/']).length) := by
            rw [h1, h2]
        _ = (A ++ ['/']).length
            + ((c ++ renderPath cs2).takeWhile (fun x => !(x == '/'))).length :=
            walkNonSlash_append _ _
        _ = A.length + 1 + c.length := by
            rw [takeWhile_nonslash_component c (renderPath cs2) hcs hrs2, h2]
    rw [hstart]
    cases cs2 with
    | nil =>
      have hslen : (A ++ renderPath [c]).length = A.length + 1 + c.length := by
        rw [renderPath_cons]
        simp [renderPath]
        omega
      simp only [checkedBoundaries]
      rw [hj]
      have hk : walkSlash (A ++ renderPath [c]) (A.length + 1 + c.length)
          = A.length + 1 + c.length := by
        unfold walkSlash
        rw [List.drop_eq_nil_of_le (by rw [hslen])]
        rfl
      rw [hk, if_neg (by rw [hslen]; omega)]
      simp [renderPath_cons, renderPath]
      omega
    | cons d ds =>
      obtain ⟨hdne, hds⟩ := hok d (List.mem_cons_of_mem c (List.mem_cons_self d ds))
      have hs2 : A ++ renderPath (c :: d :: ds) = (A ++ '/' :: c) ++ renderPath (d :: ds) := by
        rw [renderPath_cons]
        simp
      have hA2 : (A ++ '/' :: c).length = A.length + 1 + c.length := by
        simp
        omega
      have hj2 : walkNonSlash ((A ++ '/' :: c) ++ renderPath (d :: ds)) (A.length + 1)
          = (A ++ '/' :: c).length := by
        rw [hs2] at hj
        rw [hj, hA2]
      have hk2 : walkSlash ((A ++ '/' :: c) ++ renderPath (d :: ds)) ((A ++ '/' :: c).length)
          = (A ++ '/' :: c).length + 1 := by
        rw [walkSlash_append, renderPath_cons,
          takeWhile_slash_component d (renderPath ds) hdne hds]
      have hd1 : 1 ≤ d.length := by
        cases d with
        | nil => exact absurd rfl hdne
        | cons x xs => simp
      have hlen2 : (A ++ '/' :: c).length + 1
          < ((A ++ '/' :: c) ++ renderPath (d :: ds)).length := by
        rw [List.length_append, renderPath_cons]
        simp
        omega
      have hfuel2 : (d :: ds).length ≤ f := by
        simp only [List.length_cons] at hfuel ⊢
        omega
      have ihx := ih (A ++ '/' :: c) f (by simp)
        (fun x hx => hok x (List.mem_cons_of_mem c hx)) hfuel2
      rw [hs2]
      simp only [checkedBoundaries]
      rw [hj2, hk2, if_pos hlen2, ← hk2, ihx]
      simp only [List.length_cons]
      conv_rhs => rw [List.range_succ_eq_map, List.map_cons, List.map_map]
      congr 1
      · simp only [List.take_succ_cons, List.take_zero, renderPath,
          List.map_cons, List.map_nil, List.flatten_cons, List.flatten_nil,
          List.append_nil, List.length_append, List.length_cons]
      · apply List.map_congr_left
        intro m _
        simp only [Function.comp_apply, List.take_succ_cons, renderPath_cons,
          List.length_cons, List.length_append]
        omega

theorem build_path_branch_meta (bp t : List Char) (h1 : bp ≠ [])
    (h2 : bp.getLastD NUL = '/') (t2 : List Char) (h3 : t = '/' :: t2)
    (hl : bp.length + METADIR_L.length + t.length ≤ PATHLEN_MAX) :
    (build_path PATHLEN_MAX [bp, METADIR_L, t]).err = none ∧
    (build_path PATHLEN_MAX [bp, METADIR_L, t]).buf = bp ++ metadirNS_L ++ t := by
  have hbl : 0 < bp.length := List.length_pos.mpr h1
  have htl : 0 < t.length := by rw [h3]; simp
  have hmd : METADIR_L.length = 9 := by decide
  rw [hmd] at hl
  have hmdsplit : METADIR_L = metadirNS_L ++ ['/'] := by decide
  have hlast2 : (bp ++ METADIR_L).getLastD NUL = '/' := by
    rw [hmdsplit, ← List.append_assoc]
    simp [List.getLastD_concat]
  have hdrop : (bp ++ METADIR_L).dropLast = bp ++ metadirNS_L := by
    rw [hmdsplit, ← List.append_assoc, List.dropLast_concat]
  have hhead : t.headD NUL = '/' := by rw [h3]; rfl
  have hsep1 : sepAdjust bp METADIR_L (max 1 bp.length) = (bp, max 1 bp.length) := by
    unfold sepAdjust
    rw [if_neg (fun hc => absurd hc.2 (by decide)), if_neg (fun hc => hc.1 h2)]
  have hsep2 : ∀ hi : Nat, sepAdjust (bp ++ METADIR_L) t hi = ((bp ++ METADIR_L).dropLast, hi) := by
    intro hi
    unfold sepAdjust
    rw [if_pos ⟨hlast2, hhead⟩]
  dsimp only [build_path]
  rw [if_neg (by omega), if_neg (by omega)]
  simp only [build_path_loop]
  rw [hsep1]
  dsimp only
  rw [if_neg (show ¬(bp.length + METADIR_L.length + 1 > PATHLEN_MAX) from by rw [hmd]; omega)]
  rw [hsep2]
  rw [hdrop]
  rw [if_neg (show ¬((bp ++ metadirNS_L).length + t.length + 1 > PATHLEN_MAX) from by
    simp only [List.length_append, show metadirNS_L.length = 8 from by decide]
    omega)]
  refine ⟨rfl, ?_⟩
  dsimp only

theorem firstNonzero_map_iteB {α : Type} (e : Int) (he : e ≠ 0) (pr : α → Bool) (l : List α) :
    firstNonzero (l.map (fun a => if pr a then e else 0)) = if l.any pr then e else 0 := by
  induction l with
  | nil => rfl
  | cons a t ih =>
    rw [List.map_cons, List.any_cons]
    by_cases h : pr a
    · rw [if_pos h]
      unfold firstNonzero
      rw [List.find?_cons_of_pos _ (by simp [he])]
      rw [if_pos (by simp [h])]
      rfl
    · have h0 : pr a = false := Bool.eq_false_iff.mpr h
      rw [if_neg h]
      unfold firstNonzero
      rw [List.find?_cons_of_neg _ (by simp)]
      have hcond : (pr a || t.any pr) = t.any pr := by simp [h0]
      rw [hcond]
      exact ih

theorem any_map_eq {α β : Type} (f : α → β) (p : β → Bool) (l : List α) :
    (l.map f).any p = l.any (fun a => p (f a)) := by
  induction l with
  | nil => rfl
  | cons a t ih => rw [List.map_cons, List.any_cons, List.any_cons, ih]

/-- C1: with COW enabled, for a canonical union path given by its
components `cs` (non-empty, separator-free) and a branch whose root ends
with a separator, `path_hidden` returns 1 exactly when some ancestor
prefix of the path (the leaf included) carries a whiteout marker in that
branch's metadata tree, and 0 when no prefix does — in particular it
returns 1 also when no marker exists for the leaf path itself.  The
length hypothesis keeps every prefix check below `PATHLEN_MAX`. -/
theorem path_hidden_ancestor_iff (cfg : Cfg) (fs : Fs) (cs : List (List Char)) (branch : Nat)
    (hcow : cfg.cow_enabled = true)
    (hcs : cs ≠ []) (hok : okComponents cs)
    (hbp : cfg.branches.getD branch [] ≠ [])
    (hbps : (cfg.branches.getD branch []).getLastD NUL = '/')
    (hlen : (cfg.branches.getD branch []).length + metadirNS_L.length
        + (renderPath cs).length + HIDETAG_L.length < PATHLEN_MAX) :
    path_hidden cfg fs (renderPath cs) branch =
      if (ancestorMarkers (cfg.branches.getD branch []) cs).any (fun q => (fs q).isSome)
      then 1 else 0 := by
  obtain ⟨c, cs2, rfl⟩ : ∃ c cs2, cs = c :: cs2 := by
    cases cs with
    | nil => exact absurd rfl hcs
    | cons c cs2 => exact ⟨c, cs2, rfl⟩
  have hns : metadirNS_L.length = 8 := by decide
  have htag : HIDETAG_L.length = 8 := by decide
  have hmd9 : METADIR_L.length = 9 := by decide
  rw [hns, htag] at hlen
  have hb := build_path_branch_meta (cfg.branches.getD branch []) (renderPath (c :: cs2))
    hbp hbps (c ++ renderPath cs2) (renderPath_cons c cs2)
    (by rw [hmd9]; omega)
  unfold path_hidden
  rw [if_neg (by rw [hcow]; exact fun hc => Bool.noConfusion hc)]
  rw [if_neg (by rw [hb.1]; simp)]
  rw [hcow, hb.2]
  have hidx : (cfg.branches.getD branch []).length + METADIR_L.length - 1
      = ((cfg.branches.getD branch []) ++ metadirNS_L).length := by
    rw [hmd9, List.length_append, hns]
    omega
  rw [hidx]
  rw [hiddenLoop_eq_firstNonzero]
  have hfuel : (c :: cs2).length ≤
      (((cfg.branches.getD branch []) ++ metadirNS_L) ++ renderPath (c :: cs2)).length + 1 := by
    have h1 := length_le_renderPath (c :: cs2)
    rw [List.length_append]
    omega
  rw [checkedBoundaries_render (c :: cs2) ((cfg.branches.getD branch []) ++ metadirNS_L)
    _ hcs hok hfuel]
  rw [List.map_map]
  have hA : ((cfg.branches.getD branch []) ++ metadirNS_L).length
      = (cfg.branches.getD branch []).length + 8 := by
    rw [List.length_append, hns]
  have hpreflen : ∀ k, (renderPath ((c :: cs2).take k)).length ≤ (renderPath (c :: cs2)).length := by
    intro k
    conv_rhs => rw [← List.take_append_drop k (c :: cs2)]
    rw [renderPath_append, List.length_append]
    omega
  have htake : ∀ k, (renderPath (c :: cs2)).take (renderPath ((c :: cs2).take k)).length
      = renderPath ((c :: cs2).take k) := by
    intro k
    have hsplit : renderPath (c :: cs2)
        = renderPath ((c :: cs2).take k) ++ renderPath ((c :: cs2).drop k) := by
      rw [← renderPath_append, List.take_append_drop]
    rw [hsplit, List.take_left]
  rw [List.map_congr_left (g := fun m =>
      if (fs (((cfg.branches.getD branch []) ++ metadirNS_L)
            ++ renderPath ((c :: cs2).take (m + 1)) ++ HIDETAG_L)).isSome
      then (1 : Int) else 0) ?pw]
  case pw =>
    intro m hm
    simp only [Function.comp_apply]
    unfold filedir_hidden
    rw [if_neg (by simp)]
    rw [if_neg (show ¬(((cfg.branches.getD branch []) ++ metadirNS_L).length
        + (renderPath ((c :: cs2).take (m + 1))).length = 0) from by
      rw [hA]; omega)]
    rw [if_neg (show ¬(PATHLEN_MAX ≤ ((cfg.branches.getD branch []) ++ metadirNS_L).length
        + (renderPath ((c :: cs2).take (m + 1))).length + HIDETAG_L.length) from by
      have := hpreflen (m + 1)
      rw [hA, htag]
      omega)]
    rw [take_append_add, htake]
  rw [firstNonzero_map_iteB 1 (by decide)]
  have hany : ((List.range (c :: cs2).length).any fun m =>
        (fs (((cfg.branches.getD branch []) ++ metadirNS_L)
          ++ renderPath ((c :: cs2).take (m + 1)) ++ HIDETAG_L)).isSome)
      = (ancestorMarkers (cfg.branches.getD branch []) (c :: cs2)).any
          (fun q => (fs q).isSome) := by
    unfold ancestorMarkers
    rw [any_map_eq]
  rw [hany]

/-- Witness for C1: with a marker at ancestor prefix `/d` in branch
`"/b/"`, `path_hidden("/d/f")` reports hidden (1) although no marker
exists for the leaf path itself. -/
theorem path_hidden_ancestor_iff_witness :
    path_hidden ⟨true, ["/b/".toList]⟩
        (fun q => if q = "/b/.unionfs/d_HIDDEN~".toList then some FKind.file else none)
        (renderPath [['d'], ['f']]) 0 = 1 :=
  (path_hidden_ancestor_iff ⟨true, ["/b/".toList]⟩
      (fun q => if q = "/b/.unionfs/d_HIDDEN~".toList then some FKind.file else none)
      [['d'], ['f']] 0 rfl (by decide) (by decide) (by decide) (by decide) (by decide)).trans
    (by decide)

/-- C10 (counterexample): the claim "path_hidden returns -ENAMETOOLONG
whenever some prefix's marker name reaches the buffer capacity" fails:
here the leaf marker name reaches `PATHLEN_MAX`, but a marker at the
short ancestor prefix `/d` makes the walk return 1 before the overlong
prefix is ever checked. -/
theorem path_hidden_toolong_cex :
    PATHLEN_MAX ≤ (build_path PATHLEN_MAX ["/b/".toList, METADIR_L,
        ('/' :: 'd' :: '/' :: List.replicate 1002 'a')]).buf.length + HIDETAG_L.length
    ∧ path_hidden ⟨true, ["/b/".toList]⟩
        (fun q => if q = "/b/.unionfs/d_HIDDEN~".toList then some FKind.file else none)
        ('/' :: 'd' :: '/' :: List.replicate 1002 'a') 0 = 1 := by
  exact ⟨by decide, by decide⟩

/-- C10 (amended): `path_hidden`'s result is not always a hidden-or-not
boolean.  (a) In a branch with no markers at all, a canonical path whose
full marker name reaches `PATHLEN_MAX` (while the plain path still
builds) drives the walk into an overlong prefix, and `path_hidden`
returns `-ENAMETOOLONG` to its caller; a marker at a shorter checked
prefix would instead return 1 first, which is the case the original
claim overlooks.  (b) When the initial full marker-path construction
fails, `path_hidden` returns 0 ("not hidden") rather than an error. -/
theorem path_hidden_error_semantics :
    (∀ (cfg : Cfg) (cs : List (List Char)) (branch : Nat),
      cfg.cow_enabled = true → cs ≠ [] → okComponents cs →
      cfg.branches.getD branch [] ≠ [] →
      (cfg.branches.getD branch []).getLastD NUL = '/' →
      (cfg.branches.getD branch []).length + METADIR_L.length + (renderPath cs).length
        ≤ PATHLEN_MAX →
      PATHLEN_MAX ≤ (cfg.branches.getD branch []).length + metadirNS_L.length
        + (renderPath cs).length + HIDETAG_L.length →
      path_hidden cfg (fun _ => none) (renderPath cs) branch = -ENAMETOOLONG)
    ∧ (∀ (cfg : Cfg) (fs : Fs) (p : List Char) (branch : Nat),
      (build_path PATHLEN_MAX [cfg.branches.getD branch [], METADIR_L, p]).err.isSome = true →
      path_hidden cfg fs p branch = 0) := by
  constructor
  · intro cfg cs branch hcow hcs hok hbp hbps hfit hover
    obtain ⟨c, cs2, rfl⟩ : ∃ c cs2, cs = c :: cs2 := by
      cases cs with
      | nil => exact absurd rfl hcs
      | cons c cs2 => exact ⟨c, cs2, rfl⟩
    have hns : metadirNS_L.length = 8 := by decide
    have htag : HIDETAG_L.length = 8 := by decide
    have hmd9 : METADIR_L.length = 9 := by decide
    rw [hns, htag] at hover
    rw [hmd9] at hfit
    have hb := build_path_branch_meta (cfg.branches.getD branch []) (renderPath (c :: cs2))
      hbp hbps (c ++ renderPath cs2) (renderPath_cons c cs2) (by rw [hmd9]; omega)
    unfold path_hidden
    rw [if_neg (by rw [hcow]; exact fun hc => Bool.noConfusion hc)]
    rw [if_neg (by rw [hb.1]; simp)]
    rw [hcow, hb.2]
    have hidx : (cfg.branches.getD branch []).length + METADIR_L.length - 1
        = ((cfg.branches.getD branch []) ++ metadirNS_L).length := by
      rw [hmd9, List.length_append, hns]
      omega
    rw [hidx]
    rw [hiddenLoop_eq_firstNonzero]
    have hfuel : (c :: cs2).length ≤
        (((cfg.branches.getD branch []) ++ metadirNS_L) ++ renderPath (c :: cs2)).length + 1 := by
      have h1 := length_le_renderPath (c :: cs2)
      rw [List.length_append]
      omega
    rw [checkedBoundaries_render (c :: cs2) ((cfg.branches.getD branch []) ++ metadirNS_L)
      _ hcs hok hfuel]
    rw [List.map_map]
    have hA : ((cfg.branches.getD branch []) ++ metadirNS_L).length
        = (cfg.branches.getD branch []).length + 8 := by
      rw [List.length_append, hns]
    rw [List.map_congr_left (g := fun m =>
        if PATHLEN_MAX ≤ ((cfg.branches.getD branch []) ++ metadirNS_L).length
            + (renderPath ((c :: cs2).take (m + 1))).length + HIDETAG_L.length
        then -ENAMETOOLONG else (0 : Int)) ?pw]
    case pw =>
      intro m hm
      simp only [Function.comp_apply]
      unfold filedir_hidden
      rw [if_neg (by simp)]
      rw [if_neg (show ¬(((cfg.branches.getD branch []) ++ metadirNS_L).length
          + (renderPath ((c :: cs2).take (m + 1))).length = 0) from by
        rw [hA]; omega)]
      simp
    rw [firstNonzero_map_ite (-ENAMETOOLONG) (by decide)]
    rw [if_pos ?hit]
    case hit =>
      rw [List.any_eq_true]
      refine ⟨(c :: cs2).length - 1, List.mem_range.mpr (by simp), ?_⟩
      rw [decide_eq_true_eq]
      rw [show (c :: cs2).length - 1 + 1 = (c :: cs2).length from by simp]
      rw [List.take_length, hA, htag]
      omega
  · intro cfg fs p branch herr
    unfold path_hidden
    by_cases hcow : cfg.cow_enabled = false
    · rw [if_pos hcow]
    · rw [if_neg hcow, if_pos herr]

/-- Witness for C10's amended theorem: (a) a 1005-byte canonical path
under branch `"/b/"` with an empty metadata tree yields
`-ENAMETOOLONG`; (b) a 1021-byte path whose full marker path does not
build yields 0. -/
theorem path_hidden_error_semantics_witness :
    path_hidden ⟨true, ["/b/".toList]⟩ (fun _ => none)
        (renderPath [['d'], List.replicate 1002 'a']) 0 = -ENAMETOOLONG
    ∧ path_hidden ⟨true, ["/b/".toList]⟩ (fun _ => none)
        ('/' :: List.replicate 1020 'a') 0 = 0 :=
  ⟨path_hidden_error_semantics.1 ⟨true, ["/b/".toList]⟩ [['d'], List.replicate 1002 'a'] 0
      rfl (by decide) (by decide) (by decide) (by decide) (by decide) (by decide),
   path_hidden_error_semantics.2 ⟨true, ["/b/".toList]⟩ (fun _ => none)
      ('/' :: List.replicate 1020 'a') 0 (by decide)⟩
